import Mathlib

/-!
Verification development for the core algorithms of the rust-paddle-ocr
repository: the greedy sequence decoder (src/rec.rs), the detection
postprocessor with its box-merge algorithm (src/det.rs), the adaptive
region extractor (src/efficient_cropping.rs) and the engine worker's
reply discipline (src/engine.rs).

Machine integers (i32/u32/usize) are modelled as ℤ/ℕ; the f32 scores and
probabilities are modelled as ℚ (all comparisons and the fixed constants
0.8 and 0.4 are exact at the inputs considered).
-/

namespace PaddleOcr

/-! ### Sequence decoder (src/rec.rs) -/

/-- The fixed punctuation set `Rec::PUNCTUATIONS` (49 characters). -/
def PUNCTUATIONS : List Char :=
  [',', '.', '!', '?', ';', ':', '"', '\'', '(', ')', '[', ']', '{', '}', '-', '_', '/', '\\',
   '|', '@', '#', '$', '%', '&', '*', '+', '=', '~', '，', '。', '！', '？', '；', '：', '、',
   '「', '」', '『', '』', '（', '）', '【', '】', '《', '》', '—', '…', '·', '～']

/-- Embeds `Rec::is_punctuation`. -/
def isPunctuation (ch : Char) : Bool :=
  PUNCTUATIONS.contains ch

/-- Embeds the arg-max loop of `Rec::run_model` for timestep `i`:
`max_idx`/`max_score` start at `0`/`0.0` and are updated on a strictly
greater score, with the `offset < output_data.len()` guard. -/
def argmaxAt (outputData : List ℚ) (vocabSize i : ℕ) : ℕ × ℚ :=
  (List.range vocabSize).foldl
    (fun acc j =>
      let offset := i * vocabSize + j
      if offset < outputData.length ∧ outputData.getD offset 0 > acc.2 then
        (j, outputData.getD offset 0)
      else acc)
    (0, 0)

/-- Embeds the first (emission) pass of `Rec::run_model`: the fold over
timesteps carrying `last_char`, given the per-timestep `(max_idx, max_score)`
pairs.  Returns the final `last_char` and the emitted `results` list. -/
def firstPass (keys : List Char) (minScore punctMinScore : ℚ) :
    Option Char → List (ℕ × ℚ) → Option Char × List (Char × ℚ)
  | lastChar, [] => (lastChar, [])
  | lastChar, (maxIdx, maxScore) :: rest =>
    if h : 0 < maxIdx ∧ maxIdx < keys.length then
      let ch := keys.get ⟨maxIdx, h.2⟩
      let threshold := if isPunctuation ch then punctMinScore else minScore
      if maxScore > threshold then
        let tail := firstPass keys minScore punctMinScore (some ch) rest
        if lastChar ≠ some ch ∨ isPunctuation ch = true then
          (tail.1, (ch, maxScore) :: tail.2)
        else tail
      else
        if isPunctuation ch = true ∧ maxScore > punctMinScore * (4/5) then
          -- low-confidence punctuation fallback: push and leave last_char untouched
          let tail := firstPass keys minScore punctMinScore lastChar rest
          (tail.1, (ch, maxScore) :: tail.2)
        else
          firstPass keys minScore punctMinScore none rest
    else
      firstPass keys minScore punctMinScore none rest

/-- Embeds the second (punctuation-collapsing) pass of `Rec::run_model`.
The source loop pushes each entry and, when it is punctuation, skips the
immediately following entries equal to it; the skipping is carried here as
an explicit state (the punctuation character currently being skipped). -/
def secondPassAux : Option Char → List (Char × ℚ) → List (Char × ℚ)
  | _, [] => []
  | skipChar, (ch, score) :: rest =>
    match skipChar with
    | some c =>
      if ch = c then secondPassAux (some c) rest
      else (ch, score) :: secondPassAux (if isPunctuation ch then some ch else none) rest
    | none =>
      (ch, score) :: secondPassAux (if isPunctuation ch then some ch else none) rest

/-- The second pass of `Rec::run_model`, starting with no skip state. -/
def secondPass (results : List (Char × ℚ)) : List (Char × ℚ) :=
  secondPassAux none results

/-- The decode stage of `Rec::run_model` given the raw output data of shape
`(1, sequenceLength, vocabSize)`: per-timestep arg-max, then both passes. -/
def runModelDecode (keys : List Char) (minScore punctMinScore : ℚ)
    (outputData : List ℚ) (sequenceLength vocabSize : ℕ) : List (Char × ℚ) :=
  secondPass
    ((firstPass keys minScore punctMinScore none
        ((List.range sequenceLength).map (argmaxAt outputData vocabSize))).2)

/-- Embeds `Rec::predict_with_confidence` given the `(char, score)` list:
empty input gives `("", 0)`, otherwise the concatenated text and the
arithmetic mean of the scores. -/
def predictWithConfidence (charScores : List (Char × ℚ)) : String × ℚ :=
  if charScores.isEmpty then ("", 0)
  else
    let totalScore : ℚ := (charScores.map (fun p => p.2)).sum
    let avgScore := totalScore / (charScores.length : ℚ)
    (String.mk (charScores.map (fun p => p.1)), avgScore)

/-- The character table of the §4.4 worked example. -/
def exampleKeys : List Char := [' ', 'A', 'B', '.']

/-- A concrete `(1, 6, 4)` recognition output realizing the worked example's
per-timestep arg-max pairs `(1,0.9),(1,0.9),(0,0.99),(2,0.8),(3,0.05),(3,0.30)`. -/
def exampleOutput : List ℚ :=
  [1/20, 9/10, 1/50, 3/100,
   1/20, 9/10, 1/50, 3/100,
   99/100, 1/50, 1/50, 1/50,
   1/10, 1/10, 4/5, 1/50,
   1/100, 1/50, 1/100, 1/20,
   1/10, 1/5, 1/10, 3/10]

theorem isPunct_dot : isPunctuation '.' = true := by decide

theorem isPunct_space : isPunctuation ' ' = false := by decide

theorem isPunct_A : isPunctuation 'A' = false := by decide

theorem isPunct_B : isPunctuation 'B' = false := by decide

set_option maxHeartbeats 1000000 in
theorem exampleArgmax :
    (List.range 6).map (argmaxAt exampleOutput 4) =
      [(1, 9/10), (1, 9/10), (0, 99/100), (2, 4/5), (3, 1/20), (3, 3/10)] := by
  have h0 : argmaxAt exampleOutput 4 0 = (1, 9/10) := by
    norm_num [argmaxAt, exampleOutput, List.range_succ, List.getD]
  have h1 : argmaxAt exampleOutput 4 1 = (1, 9/10) := by
    norm_num [argmaxAt, exampleOutput, List.range_succ, List.getD]
  have h2 : argmaxAt exampleOutput 4 2 = (0, 99/100) := by
    norm_num [argmaxAt, exampleOutput, List.range_succ, List.getD]
  have h3 : argmaxAt exampleOutput 4 3 = (2, 4/5) := by
    norm_num [argmaxAt, exampleOutput, List.range_succ, List.getD]
  have h4 : argmaxAt exampleOutput 4 4 = (3, 1/20) := by
    norm_num [argmaxAt, exampleOutput, List.range_succ, List.getD]
  have h5 : argmaxAt exampleOutput 4 5 = (3, 3/10) := by
    norm_num [argmaxAt, exampleOutput, List.range_succ, List.getD]
  simp [List.range_succ, h0, h1, h2, h3, h4, h5]

/-- Claim C1: with CharacterTable `[' ','A','B','.']`, regular threshold `0.5`
and punctuation threshold `0.1`, decoding the 6-timestep sequence whose
per-timestep arg-max pairs are `(1,0.9),(1,0.9),(0,0.99),(2,0.8),(3,0.05),(3,0.30)`
yields the emitted list `[('A',0.9),('B',0.8),('.',0.30)]`, hence the string
`"AB."` and overall confidence `(0.9+0.8+0.30)/3 = 2/3`. -/
theorem claim_c1_worked_example :
    (List.range 6).map (argmaxAt exampleOutput 4) =
        [(1, 9/10), (1, 9/10), (0, 99/100), (2, 4/5), (3, 1/20), (3, 3/10)] ∧
      runModelDecode exampleKeys (1/2) (1/10) exampleOutput 6 4 =
        [('A', 9/10), ('B', 4/5), ('.', 3/10)] ∧
      predictWithConfidence (runModelDecode exampleKeys (1/2) (1/10) exampleOutput 6 4) =
        ("AB.", 2/3) := by
  have hdec : runModelDecode exampleKeys (1/2) (1/10) exampleOutput 6 4 =
      [('A', 9/10), ('B', 4/5), ('.', 3/10)] := by
    rw [runModelDecode, exampleArgmax]
    norm_num [firstPass, secondPass, secondPassAux, exampleKeys,
      isPunct_dot, isPunct_space, isPunct_A, isPunct_B]
  refine ⟨exampleArgmax, hdec, ?_⟩
  rw [hdec]
  norm_num [predictWithConfidence]

/-- Claim C10: when a timestep hits the low-confidence punctuation fallback
(punctuation character, score at or below the punctuation threshold but
strictly above `0.8` times it), the character is emitted and `last_char` is
left completely unchanged; consequently a non-punctuation character arg-maxed
immediately afterwards is still deduplicated against the character tracked
before the fallback. -/
theorem claim_c10_fallback_keeps_last_char
    (keys : List Char) (minScore punctMinScore : ℚ) (maxIdx : ℕ)
    (ch : Char) (score : ℚ) (lastChar : Option Char)
    (rest : List (ℕ × ℚ)) (j : ℕ) (ch2 : Char) (s2 : ℚ)
    (hpos : 0 < maxIdx) (hlt : maxIdx < keys.length)
    (hch : keys[maxIdx] = ch) (hpunct : isPunctuation ch = true)
    (hle : score ≤ punctMinScore) (hgt : score > punctMinScore * (4/5))
    (hjpos : 0 < j) (hjlt : j < keys.length)
    (hch2 : keys[j] = ch2) (hnp2 : isPunctuation ch2 = false)
    (hs2 : s2 > minScore) :
    firstPass keys minScore punctMinScore lastChar ((maxIdx, score) :: rest) =
        ((firstPass keys minScore punctMinScore lastChar rest).1,
         (ch, score) :: (firstPass keys minScore punctMinScore lastChar rest).2) ∧
      firstPass keys minScore punctMinScore (some ch2)
          ((maxIdx, score) :: (j, s2) :: rest) =
        ((firstPass keys minScore punctMinScore (some ch2) rest).1,
         (ch, score) :: (firstPass keys minScore punctMinScore (some ch2) rest).2) := by
  have hstep : ∀ (lc : Option Char) (rest' : List (ℕ × ℚ)),
      firstPass keys minScore punctMinScore lc ((maxIdx, score) :: rest') =
        ((firstPass keys minScore punctMinScore lc rest').1,
         (ch, score) :: (firstPass keys minScore punctMinScore lc rest').2) := by
    intro lc rest'
    rw [firstPass, dif_pos ⟨hpos, hlt⟩]
    simp [hch, hpunct, hgt, hle.not_lt]
  have hdedup :
      firstPass keys minScore punctMinScore (some ch2) ((j, s2) :: rest) =
        firstPass keys minScore punctMinScore (some ch2) rest := by
    rw [firstPass, dif_pos ⟨hjpos, hjlt⟩]
    simp [hch2, hnp2, hs2]
  refine ⟨hstep lastChar rest, ?_⟩
  rw [hstep (some ch2) ((j, s2) :: rest), hdedup]

/-- Witness for claim C10 at a concrete input: punctuation threshold `0.1`,
fallback score `0.09`, tracked character `'A'`. -/
theorem claim_c10_witness :
    ((0:ℚ) < 1 ∧ (9:ℚ)/100 ≤ 1/10 ∧ (9:ℚ)/100 > (1/10) * (4/5) ∧ (9:ℚ)/10 > 1/2) ∧
      (firstPass exampleKeys (1/2) (1/10) (some 'A') [(3, 9/100)] =
          ((firstPass exampleKeys (1/2) (1/10) (some 'A') []).1,
           ('.', 9/100) :: (firstPass exampleKeys (1/2) (1/10) (some 'A') []).2) ∧
        firstPass exampleKeys (1/2) (1/10) (some 'A') [(3, 9/100), (1, 9/10)] =
          ((firstPass exampleKeys (1/2) (1/10) (some 'A') []).1,
           ('.', 9/100) :: (firstPass exampleKeys (1/2) (1/10) (some 'A') []).2)) :=
  ⟨⟨by norm_num, by norm_num, by norm_num, by norm_num⟩,
    claim_c10_fallback_keeps_last_char exampleKeys (1/2) (1/10) 3 '.' (9/100)
      (some 'A') [] 1 'A' (9/10) (by decide) (by decide) (by decide) (by decide)
      (by norm_num) (by norm_num) (by decide) (by decide) (by decide) (by decide)
      (by norm_num)⟩

/-- The first pass processes an appended list by threading the `last_char`
state through the first part. -/
theorem firstPass_append (keys : List Char) (m p : ℚ) (l₁ l₂ : List (ℕ × ℚ)) :
    ∀ lastChar : Option Char,
      firstPass keys m p lastChar (l₁ ++ l₂) =
        ((firstPass keys m p (firstPass keys m p lastChar l₁).1 l₂).1,
         (firstPass keys m p lastChar l₁).2 ++
           (firstPass keys m p (firstPass keys m p lastChar l₁).1 l₂).2) := by
  induction l₁ with
  | nil => intro lastChar; simp [firstPass]
  | cons a l₁ ih =>
    intro lastChar
    obtain ⟨idx, s⟩ := a
    simp only [List.cons_append, firstPass]
    split
    · split_ifs <;> simp [ih]
    · simp [ih]

/-- A non-blank, non-punctuation run above the regular threshold sets
`last_char` to the run's character and emits exactly its first timestep,
unless `last_char` already was that character, in which case it emits
nothing. -/
theorem firstPass_run_nonpunct (keys : List Char) (m p : ℚ) (idx : ℕ) (ch : Char)
    (hpos : 0 < idx) (hlt : idx < keys.length) (hch : keys[idx] = ch)
    (hnp : isPunctuation ch = false) :
    ∀ (run : List (ℕ × ℚ)) (s₀ : ℚ) (lastChar : Option Char),
      (∀ q ∈ (idx, s₀) :: run, q.1 = idx ∧ m < q.2) →
      firstPass keys m p lastChar ((idx, s₀) :: run) =
        (some ch, if lastChar = some ch then [] else [(ch, s₀)]) := by
  intro run
  induction run with
  | nil =>
    intro s₀ lastChar hq
    have hs := (hq (idx, s₀) (by simp)).2
    rw [firstPass, dif_pos ⟨hpos, hlt⟩]
    by_cases hlc : lastChar = some ch <;>
      simp [hch, hnp, hs, firstPass, hlc]
  | cons b run ih =>
    intro s₀ lastChar hq
    obtain ⟨bi, bs⟩ := b
    have hb := hq (bi, bs) (by simp)
    have hs := (hq (idx, s₀) (by simp)).2
    have hbi : bi = idx := hb.1
    subst hbi
    have hrec := ih bs (some ch) (by
      intro q hq2
      rcases List.mem_cons.mp hq2 with hq2 | hq2
      · subst hq2; exact ⟨rfl, hb.2⟩
      · exact hq q (by simp [hq2]))
    rw [firstPass, dif_pos ⟨hpos, hlt⟩]
    by_cases hlc : lastChar = some ch <;>
      simp [hch, hnp, hs, hlc, hrec]

/-- A punctuation run above the punctuation threshold emits one entry per
timestep (punctuation bypasses the same-character deduplication) and sets
`last_char` to the punctuation character. -/
theorem firstPass_run_punct (keys : List Char) (m p : ℚ) (idx : ℕ) (ch : Char)
    (hpos : 0 < idx) (hlt : idx < keys.length) (hch : keys[idx] = ch)
    (hp : isPunctuation ch = true) :
    ∀ (run : List (ℕ × ℚ)) (s₀ : ℚ) (lastChar : Option Char),
      (∀ q ∈ (idx, s₀) :: run, q.1 = idx ∧ p < q.2) →
      firstPass keys m p lastChar ((idx, s₀) :: run) =
        (some ch, ((idx, s₀) :: run).map (fun q => (ch, q.2))) := by
  intro run
  induction run with
  | nil =>
    intro s₀ lastChar hq
    have hs := (hq (idx, s₀) (by simp)).2
    rw [firstPass, dif_pos ⟨hpos, hlt⟩]
    simp [hch, hp, hs, firstPass]
  | cons b run ih =>
    intro s₀ lastChar hq
    obtain ⟨bi, bs⟩ := b
    have hb := hq (bi, bs) (by simp)
    have hs := (hq (idx, s₀) (by simp)).2
    have hbi : bi = idx := hb.1
    subst hbi
    have hrec := ih bs (some ch) (by
      intro q hq2
      rcases List.mem_cons.mp hq2 with hq2 | hq2
      · subst hq2; exact ⟨rfl, hb.2⟩
      · exact hq q (by simp [hq2]))
    rw [firstPass, dif_pos ⟨hpos, hlt⟩]
    simp [hch, hp, hs, hrec]

/-- While skipping a punctuation character, the second pass drops a leading
block of entries equal to it. -/
theorem secondPassAux_skip_run (ch : Char) :
    ∀ tl : List (Char × ℚ), (∀ q ∈ tl, q.1 = ch) →
      ∀ post, secondPassAux (some ch) (tl ++ post) = secondPassAux (some ch) post := by
  intro tl
  induction tl with
  | nil => intro _ post; simp
  | cons b tl ih =>
    intro h post
    obtain ⟨c, s⟩ := b
    have hc : c = ch := h (c, s) (by simp)
    subst hc
    simpa [secondPassAux] using ih (fun q hq => h q (by simp [hq])) post

/-- In the second pass, a block of consecutive identical punctuation entries
behaves exactly like its first entry alone, provided no earlier entry has the
block's character. -/
theorem secondPassAux_block (ch : Char) (s : ℚ) (hp : isPunctuation ch = true)
    (tl : List (Char × ℚ)) (htl : ∀ q ∈ tl, q.1 = ch) (post : List (Char × ℚ)) :
    ∀ (pre : List (Char × ℚ)) (skipC : Option Char),
      (∀ q ∈ pre, q.1 ≠ ch) → (∀ c, skipC = some c → c ≠ ch) →
      secondPassAux skipC (pre ++ (ch, s) :: tl ++ post) =
        secondPassAux skipC (pre ++ (ch, s) :: post) := by
  intro pre
  induction pre with
  | nil =>
    intro skipC _ hsk
    have hskip := secondPassAux_skip_run ch tl htl post
    match skipC with
    | none => simp [secondPassAux, hp, hskip]
    | some c =>
      have hcc : ¬(ch = c) := fun h => hsk c rfl h.symm
      simp [secondPassAux, hp, hcc, hskip]
  | cons b pre ih =>
    intro skipC hpre hsk
    obtain ⟨d, t⟩ := b
    have hd : d ≠ ch := hpre (d, t) (by simp)
    have hih1 := ih (if isPunctuation d then some d else none)
      (fun q hq => hpre q (by simp [hq]))
      (by intro c' hc'; split at hc' <;> simp_all)
    match skipC with
    | none => simpa [secondPassAux] using hih1
    | some c =>
      by_cases hdc : d = c
      · subst hdc
        have hih2 := ih (some d) (fun q hq => hpre q (by simp [hq])) hsk
        simpa [secondPassAux] using hih2
      · simpa [secondPassAux, hdc] using hih1

/-- Counterexample to claim C6 as stated: with keys `[' ','A','B','.']`,
thresholds `0.5`/`0.1`, on the input `(1,0.9),(3,0.09),(1,0.9)` the final
timestep is a maximal run (length 1) of the non-blank, non-punctuation index
`1` with score above the regular threshold, yet it emits zero characters:
the low-confidence punctuation fallback at the middle timestep left
`last_char = 'A'`, so the run is deduplicated away. -/
theorem claim_c6_counterexample :
    ((1:ℚ)/2 < 9/10 ∧ isPunctuation 'A' = false ∧ exampleKeys[1] = 'A' ∧
        (0:ℕ) < 1 ∧ (3:ℕ) ≠ 1) ∧
      (firstPass exampleKeys (1/2) (1/10) none [(1, 9/10), (3, 9/100)]).1 = some 'A' ∧
      (firstPass exampleKeys (1/2) (1/10) (some 'A') [(1, 9/10)]).2 = [] ∧
      secondPass
          (firstPass exampleKeys (1/2) (1/10) none [(1, 9/10), (3, 9/100), (1, 9/10)]).2 =
        [('A', 9/10), ('.', 9/100)] := by
  refine ⟨⟨by norm_num, by decide, by decide, by decide, by decide⟩, ?_, ?_, ?_⟩ <;>
    · norm_num [firstPass, secondPass, secondPassAux, exampleKeys,
        isPunct_dot, isPunct_A]
      try simp

/-- Claim C6 (amended): the first pass threads its state through list
decomposition; a maximal non-blank, non-punctuation run above the regular
threshold emits exactly one character provided the tracked `last_char` on
entering the run differs from the run's character (and zero otherwise); a
punctuation run above the punctuation threshold emits one entry per timestep
in the first pass, and the second pass collapses its block to exactly one
entry provided no earlier emitted entry has the run's character. -/
theorem claim_c6_run_collapsing
    (keys : List Char) (m p : ℚ) (idx : ℕ) (ch : Char)
    (hpos : 0 < idx) (hlt : idx < keys.length) (hch : keys[idx] = ch)
    (l₁ l₂ run : List (ℕ × ℚ)) (s₀ : ℚ) (lastChar : Option Char)
    (pre tl post : List (Char × ℚ)) (s : ℚ) :
    (firstPass keys m p lastChar (l₁ ++ l₂) =
        ((firstPass keys m p (firstPass keys m p lastChar l₁).1 l₂).1,
         (firstPass keys m p lastChar l₁).2 ++
           (firstPass keys m p (firstPass keys m p lastChar l₁).1 l₂).2)) ∧
      (isPunctuation ch = false →
        (∀ q ∈ (idx, s₀) :: run, q.1 = idx ∧ m < q.2) →
        firstPass keys m p lastChar ((idx, s₀) :: run) =
          (some ch, if lastChar = some ch then [] else [(ch, s₀)])) ∧
      (isPunctuation ch = true →
        (∀ q ∈ (idx, s₀) :: run, q.1 = idx ∧ p < q.2) →
        firstPass keys m p lastChar ((idx, s₀) :: run) =
          (some ch, ((idx, s₀) :: run).map (fun q => (ch, q.2)))) ∧
      (isPunctuation ch = true →
        (∀ q ∈ pre, q.1 ≠ ch) → (∀ q ∈ tl, q.1 = ch) →
        secondPass (pre ++ (ch, s) :: tl ++ post) =
          secondPass (pre ++ (ch, s) :: post)) := by
  refine ⟨firstPass_append keys m p l₁ l₂ lastChar, ?_, ?_, ?_⟩
  · intro hnp hq
    exact firstPass_run_nonpunct keys m p idx ch hpos hlt hch hnp run s₀ lastChar hq
  · intro hp hq
    exact firstPass_run_punct keys m p idx ch hpos hlt hch hp run s₀ lastChar hq
  · intro hp hpre htl
    exact secondPassAux_block ch s hp tl htl post pre none hpre (by simp)

/-- Witness for the amended claim C6 at concrete inputs. -/
theorem claim_c6_witness :
    ((0:ℕ) < 3 ∧ (3:ℕ) < exampleKeys.length ∧ exampleKeys[3] = '.') ∧
      ((firstPass exampleKeys (1/2) (1/10) none ([(1, 9/10)] ++ [(0, 99/100)]) =
          ((firstPass exampleKeys (1/2) (1/10)
              (firstPass exampleKeys (1/2) (1/10) none [(1, 9/10)]).1 [(0, 99/100)]).1,
           (firstPass exampleKeys (1/2) (1/10) none [(1, 9/10)]).2 ++
             (firstPass exampleKeys (1/2) (1/10)
               (firstPass exampleKeys (1/2) (1/10) none [(1, 9/10)]).1 [(0, 99/100)]).2)) ∧
        (isPunctuation '.' = false →
          (∀ q ∈ [((3:ℕ), (3:ℚ)/10), (3, 2/5)], q.1 = 3 ∧ (1:ℚ)/2 < q.2) →
          firstPass exampleKeys (1/2) (1/10) none [(3, 3/10), (3, 2/5)] =
            (some '.', if (none : Option Char) = some '.' then [] else [('.', 3/10)])) ∧
        (isPunctuation '.' = true →
          (∀ q ∈ [((3:ℕ), (3:ℚ)/10), (3, 2/5)], q.1 = 3 ∧ (1:ℚ)/10 < q.2) →
          firstPass exampleKeys (1/2) (1/10) none [(3, 3/10), (3, 2/5)] =
            (some '.', [((3:ℕ), (3:ℚ)/10), (3, 2/5)].map (fun q => ('.', q.2)))) ∧
        (isPunctuation '.' = true →
          (∀ q ∈ [('A', (9:ℚ)/10)], q.1 ≠ '.') → (∀ q ∈ [('.', (1:ℚ)/5)], q.1 = '.') →
          secondPass ([('A', (9:ℚ)/10)] ++ ('.', 3/10) :: [('.', 1/5)] ++ [('B', 4/5)]) =
            secondPass ([('A', (9:ℚ)/10)] ++ ('.', 3/10) :: [('B', 4/5)]))) :=
  ⟨⟨by decide, by decide, by decide⟩,
    claim_c6_run_collapsing exampleKeys (1/2) (1/10) 3 '.'
      (by decide) (by decide) (by decide)
      [(1, 9/10)] [(0, 99/100)] [(3, 2/5)] (3/10) none
      [('A', 9/10)] [('.', 1/5)] [('B', 4/5)] (3/10)⟩

/-! ### Detection postprocessor (src/det.rs) -/

/-- Embeds an `imageproc::rect::Rect`: integer `left`/`top`, unsigned positive
`width`/`height`. -/
structure Rct where
  left : ℤ
  top : ℤ
  width : ℕ
  height : ℕ
  deriving DecidableEq, Repr

/-- Embeds `Rect::right`: the x-coordinate of the last column. -/
def Rct.right (r : Rct) : ℤ := r.left + r.width - 1

/-- Embeds `Rect::bottom`: the y-coordinate of the last row. -/
def Rct.bottom (r : Rct) : ℤ := r.top + r.height - 1

/-- Embeds `Det::boxes_overlap_with_threshold`.  The vertical slack
`(min_height as f32 * 0.4) as i32` is modelled exactly as
`⌊0.4 · min_height⌋ = (2 · min_height) / 5`. -/
def boxesOverlapWithThreshold (a b : Rct) (threshold : ℤ) : Bool :=
  let aLeft := a.left - threshold
  let aRight := a.right + threshold
  let bLeft := b.left - threshold
  let bRight := b.right + threshold
  let horizontalOverlap := !(decide (aRight < bLeft) || decide (bRight < aLeft))
  let minHeight : ℕ := min a.height b.height
  let verticalThreshold : ℤ := ((2 * minHeight) / 5 : ℕ)
  let verticalClose :=
    if a.top ≤ b.top then decide (a.bottom + verticalThreshold ≥ b.top)
    else decide (b.bottom + verticalThreshold ≥ a.top)
  horizontalOverlap && verticalClose

/-- Embeds `Det::merge_boxes`: the union bounding rectangle. -/
def mergeBoxes (a b : Rct) : Rct :=
  let left := min a.left b.left
  let right := max a.right b.right
  let top := min a.top b.top
  let bottom := max a.bottom b.bottom
  ⟨left, top, (right - left + 1).toNat, (bottom - top + 1).toNat⟩

/-- The inner loop of `Det::merge_overlapping_boxes`: scan the pool once from
the front, absorbing every box mergeable with the growing `merged` box
(removing it from the pool) and keeping the rest in order.  Returns the grown
box, the remaining pool, and whether any merge occurred. -/
def absorb (threshold : ℤ) : Rct → List Rct → Rct × List Rct × Bool
  | merged, [] => (merged, [], false)
  | merged, b :: rest =>
    if boxesOverlapWithThreshold merged b threshold then
      let r := absorb threshold (mergeBoxes merged b) rest
      (r.1, r.2.1, true)
    else
      let r := absorb threshold merged rest
      (r.1, b :: r.2.1, r.2.2)

/-- The outer loop of `Det::merge_overlapping_boxes`: take the first box,
absorb its mergeable partners, and either re-insert the merged result at the
front of the pool (if anything merged) or emit it.  The fuel argument bounds
the number of outer iterations; the worklist length strictly decreases each
iteration, so fuel equal to the initial length never runs out. -/
def mergeGo (threshold : ℤ) : ℕ → List Rct → List Rct
  | _, [] => []
  | 0, _ :: _ => []
  | fuel + 1, current :: pool =>
    let r := absorb threshold current pool
    if r.2.2 then mergeGo threshold fuel (r.1 :: r.2.1)
    else r.1 :: mergeGo threshold fuel r.2.1

/-- Embeds `Det::merge_overlapping_boxes`. -/
def mergeOverlappingBoxes (boxes : List Rct) (threshold : ℤ) : List Rct :=
  mergeGo threshold boxes.length boxes

/-- The absorb scan never lengthens the pool, and strictly shortens it
whenever a merge occurred. -/
theorem absorb_rest_length (t : ℤ) :
    ∀ (pool : List Rct) (merged : Rct),
      (absorb t merged pool).2.1.length ≤ pool.length ∧
        ((absorb t merged pool).2.2 = true →
          (absorb t merged pool).2.1.length < pool.length) := by
  intro pool
  induction pool with
  | nil => intro merged; simp [absorb]
  | cons b rest ih =>
    intro merged
    by_cases hov : boxesOverlapWithThreshold merged b t = true
    · have h := (ih (mergeBoxes merged b)).1
      simp only [absorb, if_pos hov]
      exact ⟨Nat.le_succ_of_le h, fun _ => Nat.lt_succ_of_le h⟩
    · have h := ih merged
      simp only [absorb, if_neg hov]
      refine ⟨by simpa using h.1, fun hany => ?_⟩
      simpa using h.2 (by simpa using hany)

/-- Above the worklist length, the fuel is irrelevant. -/
theorem mergeGo_fuel_irrel (t : ℤ) :
    ∀ (f₁ f₂ : ℕ) (l : List Rct), l.length ≤ f₁ → l.length ≤ f₂ →
      mergeGo t f₁ l = mergeGo t f₂ l := by
  intro f₁
  induction f₁ with
  | zero =>
    intro f₂ l h₁ _
    have : l = [] := List.length_eq_zero.mp (Nat.le_zero.mp h₁)
    subst this
    cases f₂ <;> simp [mergeGo]
  | succ g₁ ih =>
    intro f₂ l h₁ h₂
    cases l with
    | nil => cases f₂ <;> simp [mergeGo]
    | cons current pool =>
      cases f₂ with
      | zero => simp at h₂
      | succ g₂ =>
        simp only [List.length_cons] at h₁ h₂
        have hle := (absorb_rest_length t pool current).1
        simp only [mergeGo]
        by_cases hany : (absorb t current pool).2.2 = true
        · have hlt := (absorb_rest_length t pool current).2 hany
          have hl1 : ((absorb t current pool).1 :: (absorb t current pool).2.1).length ≤ g₁ := by
            simp only [List.length_cons]; omega
          have hl2 : ((absorb t current pool).1 :: (absorb t current pool).2.1).length ≤ g₂ := by
            simp only [List.length_cons]; omega
          rw [if_pos hany, if_pos hany]
          exact ih g₂ _ hl1 hl2
        · have hl1 : (absorb t current pool).2.1.length ≤ g₁ := by omega
          have hl2 : (absorb t current pool).2.1.length ≤ g₂ := by omega
          rw [if_neg hany, if_neg hany, ih g₂ _ hl1 hl2]


/-- Each merge run emits at most as many boxes as it was given. -/
theorem mergeGo_length_le (t : ℤ) :
    ∀ (f : ℕ) (l : List Rct), l.length ≤ f → (mergeGo t f l).length ≤ l.length := by
  intro f
  induction f with
  | zero =>
    intro l h
    have : l = [] := List.length_eq_zero.mp (Nat.le_zero.mp h)
    subst this
    simp [mergeGo]
  | succ g ih =>
    intro l h
    cases l with
    | nil => simp [mergeGo]
    | cons current pool =>
      simp only [List.length_cons] at h
      have hle := (absorb_rest_length t pool current).1
      simp only [mergeGo]
      by_cases hany : (absorb t current pool).2.2 = true
      · have hlt := (absorb_rest_length t pool current).2 hany
        have hrec := ih ((absorb t current pool).1 :: (absorb t current pool).2.1)
          (by simp only [List.length_cons]; omega)
        rw [if_pos hany]
        simp only [List.length_cons] at hrec ⊢
        omega
      · have hrec := ih (absorb t current pool).2.1 (by omega)
        rw [if_neg hany]
        simp only [List.length_cons]
        omega

/-- Claim C7: the merge loop terminates on every input.  The inner scan
strictly shrinks the pool whenever it re-inserts a merged box, so each outer
iteration strictly decreases the worklist length; consequently the fuelled
recursion is independent of the fuel above that measure and
`merge_overlapping_boxes` is a total function of its input. -/
theorem claim_c7_merge_terminates (t : ℤ) (current : Rct) (pool : List Rct)
    (f₁ f₂ : ℕ) (l : List Rct) (h₁ : l.length ≤ f₁) (h₂ : l.length ≤ f₂) :
    ((absorb t current pool).2.2 = true →
        (absorb t current pool).2.1.length < pool.length) ∧
      mergeGo t f₁ l = mergeGo t f₂ l ∧
      mergeOverlappingBoxes l t = mergeGo t f₁ l := by
  refine ⟨(absorb_rest_length t pool current).2, mergeGo_fuel_irrel t f₁ f₂ l h₁ h₂, ?_⟩
  exact mergeGo_fuel_irrel t l.length f₁ l le_rfl h₁

/-- Witness for claim C7 at a concrete input. -/
theorem claim_c7_witness :
    (([(⟨0,0,10,10⟩ : Rct), ⟨0,11,31,2⟩, ⟨20,11,11,20⟩] : List Rct).length ≤ 3 ∧
        ([(⟨0,0,10,10⟩ : Rct), ⟨0,11,31,2⟩, ⟨20,11,11,20⟩] : List Rct).length ≤ 5) ∧
      (((absorb 0 ⟨0,11,31,2⟩ [⟨20,11,11,20⟩]).2.2 = true →
          (absorb 0 ⟨0,11,31,2⟩ [⟨20,11,11,20⟩]).2.1.length <
            ([(⟨20,11,11,20⟩ : Rct)] : List Rct).length) ∧
        mergeGo 0 3 [⟨0,0,10,10⟩, ⟨0,11,31,2⟩, ⟨20,11,11,20⟩] =
          mergeGo 0 5 [⟨0,0,10,10⟩, ⟨0,11,31,2⟩, ⟨20,11,11,20⟩] ∧
        mergeOverlappingBoxes [⟨0,0,10,10⟩, ⟨0,11,31,2⟩, ⟨20,11,11,20⟩] 0 =
          mergeGo 0 3 [⟨0,0,10,10⟩, ⟨0,11,31,2⟩, ⟨20,11,11,20⟩]) :=
  ⟨⟨by decide, by decide⟩,
    claim_c7_merge_terminates 0 ⟨0,11,31,2⟩ [⟨20,11,11,20⟩] 3 5
      [⟨0,0,10,10⟩, ⟨0,11,31,2⟩, ⟨20,11,11,20⟩] (by decide) (by decide)⟩

/-- Counterexample to claim C5 as stated: with threshold `0`, merging the
boxes `A = (0,0,10×10)`, `B = (0,11,31×2)`, `C = (20,11,11×20)` emits `A`
first (it is mergeable with neither `B` nor `C`), then merges `B` and `C`
into a box of height `20`; that taller box IS mergeable with the
already-emitted `A`, so re-running the merge on the output changes it. -/
theorem claim_c5_counterexample :
    mergeOverlappingBoxes [⟨0,0,10,10⟩, ⟨0,11,31,2⟩, ⟨20,11,11,20⟩] 0 =
        [⟨0,0,10,10⟩, ⟨0,11,31,20⟩] ∧
      mergeOverlappingBoxes
          (mergeOverlappingBoxes [⟨0,0,10,10⟩, ⟨0,11,31,2⟩, ⟨20,11,11,20⟩] 0) 0 ≠
        mergeOverlappingBoxes [⟨0,0,10,10⟩, ⟨0,11,31,2⟩, ⟨20,11,11,20⟩] 0 := by
  decide

/-- Claim C5 (amended): re-running the merge algorithm on its own output
(same threshold) never increases the number of rectangles, but the output is
not in general a fixed point: further merges may still occur. -/
theorem claim_c5_rerun_non_increasing (boxes : List Rct) (t : ℤ) :
    (mergeOverlappingBoxes (mergeOverlappingBoxes boxes t) t).length ≤
        (mergeOverlappingBoxes boxes t).length ∧
      (mergeOverlappingBoxes boxes t).length ≤ boxes.length := by
  constructor
  · exact mergeGo_length_le t _ _ le_rfl
  · exact mergeGo_length_le t _ _ le_rfl

/-- Floor arithmetic: `⌊0.4 · m⌋ = (2 · m) / 5` for natural `m`, so the spec's floor formula agrees
with natural division. -/
theorem floor_point_four (mh : ℕ) : ⌊(0.4 : ℚ) * (mh : ℚ)⌋ = ((2 * mh) / 5 : ℕ) := by
  have h1 : (0.4 : ℚ) * (mh : ℚ) = ((2 * mh : ℕ) : ℚ) / ((5 : ℕ) : ℚ) := by
    push_cast; ring
  rw [h1, ← Int.natCast_floor_eq_floor (by positivity), Nat.floor_div_eq_div]

/-- Claim C4: the pairwise merge test holds iff the horizontal spans expanded
outward by `threshold` overlap AND the box with the smaller top edge has
`bottom + ⌊0.4·min_height⌋ ≥` the other box's top; and a merge produces
exactly the union bounding rectangle (min of lefts/tops, max of
rights/bottoms). -/
theorem claim_c4_pairwise_merge_test (a b : Rct) (t : ℤ)
    (haw : 0 < a.width) (hbw : 0 < b.width) (hah : 0 < a.height) (hbh : 0 < b.height) :
    (boxesOverlapWithThreshold a b t = true ↔
      ((b.left - t ≤ a.right + t ∧ a.left - t ≤ b.right + t) ∧
        ((a.top ≤ b.top →
            b.top ≤ a.bottom + ⌊(0.4 : ℚ) * ((min a.height b.height : ℕ) : ℚ)⌋) ∧
          (b.top ≤ a.top →
            a.top ≤ b.bottom + ⌊(0.4 : ℚ) * ((min a.height b.height : ℕ) : ℚ)⌋)))) ∧
      (boxesOverlapWithThreshold a b t = true →
        (mergeBoxes a b).left = min a.left b.left ∧
          (mergeBoxes a b).top = min a.top b.top ∧
          (mergeBoxes a b).right = max a.right b.right ∧
          (mergeBoxes a b).bottom = max a.bottom b.bottom) := by
  have hfl := floor_point_four (min a.height b.height)
  constructor
  · rw [hfl]
    rcases le_total a.height b.height with hmin | hmin <;>
      by_cases hc : a.top ≤ b.top
    · simp only [boxesOverlapWithThreshold, hc, if_true, if_false,
        Bool.and_eq_true, Bool.not_eq_true', Bool.or_eq_false_iff,
        decide_eq_false_iff_not, decide_eq_true_eq, not_lt, ge_iff_le,
        true_implies, false_implies, true_and,
        Rct.right, Rct.bottom, hmin, min_eq_left, min_eq_right]
      constructor
      · rintro ⟨hh, hv⟩; exact ⟨hh, hv, by omega⟩
      · rintro ⟨hh, hv, _⟩; exact ⟨hh, hv⟩
    · simp only [boxesOverlapWithThreshold, hc, if_true, if_false,
        Bool.and_eq_true, Bool.not_eq_true', Bool.or_eq_false_iff,
        decide_eq_false_iff_not, decide_eq_true_eq, not_lt, ge_iff_le,
        true_implies, false_implies, true_and,
        Rct.right, Rct.bottom, hmin, min_eq_left, min_eq_right]
      constructor
      · rintro ⟨hh, hv⟩; exact ⟨hh, fun _ => hv⟩
      · rintro ⟨hh, hv⟩; exact ⟨hh, hv (by omega)⟩
    · simp only [boxesOverlapWithThreshold, hc, if_true, if_false,
        Bool.and_eq_true, Bool.not_eq_true', Bool.or_eq_false_iff,
        decide_eq_false_iff_not, decide_eq_true_eq, not_lt, ge_iff_le,
        true_implies, false_implies, true_and,
        Rct.right, Rct.bottom, hmin, min_eq_left, min_eq_right]
      constructor
      · rintro ⟨hh, hv⟩; exact ⟨hh, hv, by omega⟩
      · rintro ⟨hh, hv, _⟩; exact ⟨hh, hv⟩
    · simp only [boxesOverlapWithThreshold, hc, if_true, if_false,
        Bool.and_eq_true, Bool.not_eq_true', Bool.or_eq_false_iff,
        decide_eq_false_iff_not, decide_eq_true_eq, not_lt, ge_iff_le,
        true_implies, false_implies, true_and,
        Rct.right, Rct.bottom, hmin, min_eq_left, min_eq_right]
      constructor
      · rintro ⟨hh, hv⟩; exact ⟨hh, fun _ => hv⟩
      · rintro ⟨hh, hv⟩; exact ⟨hh, hv (by omega)⟩
  · intro _
    have h1 : (0:ℤ) ≤ max a.right b.right - min a.left b.left + 1 := by
      simp only [Rct.right]; omega
    have h2 : (0:ℤ) ≤ max a.bottom b.bottom - min a.top b.top + 1 := by
      simp only [Rct.bottom]; omega
    refine ⟨rfl, rfl, ?_, ?_⟩
    · show min a.left b.left + ((max a.right b.right - min a.left b.left + 1).toNat : ℤ) - 1 =
        max a.right b.right
      rw [Int.toNat_of_nonneg h1]
      ring
    · show min a.top b.top + ((max a.bottom b.bottom - min a.top b.top + 1).toNat : ℤ) - 1 =
        max a.bottom b.bottom
      rw [Int.toNat_of_nonneg h2]
      ring

/-- Witness for claim C4 at concrete boxes `(0,0,10×10)`, `(0,11,31×2)` and
threshold `3`. -/
theorem claim_c4_witness :
    ((0:ℕ) < 10 ∧ (0:ℕ) < 31 ∧ (0:ℕ) < 10 ∧ (0:ℕ) < 2) ∧
      ((boxesOverlapWithThreshold ⟨0,0,10,10⟩ ⟨0,11,31,2⟩ 3 = true ↔
        (((⟨0,11,31,2⟩ : Rct).left - 3 ≤ (⟨0,0,10,10⟩ : Rct).right + 3 ∧
            (⟨0,0,10,10⟩ : Rct).left - 3 ≤ (⟨0,11,31,2⟩ : Rct).right + 3) ∧
          (((⟨0,0,10,10⟩ : Rct).top ≤ (⟨0,11,31,2⟩ : Rct).top →
              (⟨0,11,31,2⟩ : Rct).top ≤ (⟨0,0,10,10⟩ : Rct).bottom +
                ⌊(0.4 : ℚ) * ((min (10:ℕ) 2 : ℕ) : ℚ)⌋) ∧
            ((⟨0,11,31,2⟩ : Rct).top ≤ (⟨0,0,10,10⟩ : Rct).top →
              (⟨0,0,10,10⟩ : Rct).top ≤ (⟨0,11,31,2⟩ : Rct).bottom +
                ⌊(0.4 : ℚ) * ((min (10:ℕ) 2 : ℕ) : ℚ)⌋)))) ∧
        (boxesOverlapWithThreshold ⟨0,0,10,10⟩ ⟨0,11,31,2⟩ 3 = true →
          (mergeBoxes ⟨0,0,10,10⟩ ⟨0,11,31,2⟩).left = min 0 0 ∧
            (mergeBoxes ⟨0,0,10,10⟩ ⟨0,11,31,2⟩).top = min 0 11 ∧
            (mergeBoxes ⟨0,0,10,10⟩ ⟨0,11,31,2⟩).right =
              max (⟨0,0,10,10⟩ : Rct).right (⟨0,11,31,2⟩ : Rct).right ∧
            (mergeBoxes ⟨0,0,10,10⟩ ⟨0,11,31,2⟩).bottom =
              max (⟨0,0,10,10⟩ : Rct).bottom (⟨0,11,31,2⟩ : Rct).bottom)) :=
  ⟨⟨by decide, by decide, by decide, by decide⟩,
    claim_c4_pairwise_merge_test ⟨0,0,10,10⟩ ⟨0,11,31,2⟩ 3
      (by decide) (by decide) (by decide) (by decide)⟩

/-- A contour as returned by the contour extractor: its point set and its
optional parent index. -/
structure Contour where
  points : List (ℕ × ℕ)
  parent : Option ℕ

/-- Embeds `Det::bounding_rect`.  The source's single loop updates the four
accumulators independently, so it is written as four independent folds. -/
def boundingRect (points : List (ℕ × ℕ)) : Option Rct :=
  match points with
  | [] => none
  | p :: rest =>
    let xMin := rest.foldl (fun acc q => min acc q.1) p.1
    let xMax := rest.foldl (fun acc q => max acc q.1) p.1
    let yMin := rest.foldl (fun acc q => min acc q.2) p.2
    let yMax := rest.foldl (fun acc q => max acc q.2) p.2
    let width := xMax - xMin
    let height := yMax - yMin
    if width ≤ 5 ∨ height ≤ 5 then none
    else some ⟨(xMin : ℤ), (yMin : ℤ), width, height⟩

/-- Embeds the border-expansion step of `Det::find_box`. -/
def expandBox (rectBorderSize width height : ℕ) (x : Rct) : Rct :=
  let left := max (x.left - (rectBorderSize : ℤ)) 0
  let top := max (x.top - (rectBorderSize : ℤ)) 0
  let right := min (x.right + (rectBorderSize : ℤ)) ((width : ℤ) - 1)
  let bottom := min (x.bottom + (rectBorderSize : ℤ)) ((height : ℤ) - 1)
  ⟨left, top, (right - left + 1).toNat, (bottom - top + 1).toNat⟩

/-- Embeds `Det::find_box`: keep parentless contours, take their bounding
rectangles (dropping small ones), expand by the border size clamped to the
image. -/
def findBox (contours : List Contour) (rectBorderSize width height : ℕ) : List Rct :=
  ((contours.filter (fun c => c.parent.isNone)).filterMap
      (fun c => boundingRect c.points)).map (expandBox rectBorderSize width height)

/-- A fold of `max (f ·)` stays below a bound that dominates the seed and
every element. -/
theorem foldl_max_lt {α : Type} (f : α → ℕ) (bound : ℕ) :
    ∀ (l : List α) (init : ℕ), init < bound → (∀ x ∈ l, f x < bound) →
      l.foldl (fun acc q => max acc (f q)) init < bound := by
  intro l
  induction l with
  | nil => intro init h _; simpa using h
  | cons a l ih =>
    intro init h hall
    simp only [List.foldl_cons]
    exact ih (max init (f a)) (max_lt h (hall a (by simp)))
      (fun x hx => hall x (by simp [hx]))

/-- Claim C9: every rectangle produced by the detection postprocessor after
border expansion lies within the image and has positive width and height,
whenever all contour points lie within `[0,width-1] × [0,height-1]`. -/
theorem claim_c9_detection_in_bounds (contours : List Contour)
    (rectBorderSize width height : ℕ)
    (hpts : ∀ c ∈ contours, ∀ pt ∈ c.points, pt.1 < width ∧ pt.2 < height) :
    ∀ r ∈ findBox contours rectBorderSize width height,
      0 ≤ r.left ∧ 0 ≤ r.top ∧ r.left + (r.width : ℤ) ≤ (width : ℤ) ∧
        r.top + (r.height : ℤ) ≤ (height : ℤ) ∧ 0 < r.width ∧ 0 < r.height := by
  intro r hr
  simp only [findBox, List.mem_map] at hr
  obtain ⟨r0, hr0, rfl⟩ := hr
  simp only [List.mem_filterMap] at hr0
  obtain ⟨c, hc, hbr⟩ := hr0
  have hcp := hpts c (List.mem_of_mem_filter hc)
  cases hp : c.points with
  | nil => rw [hp] at hbr; simp [boundingRect] at hbr
  | cons p rest =>
    rw [hp] at hbr
    simp only [boundingRect] at hbr
    split_ifs at hbr with hsz
    push_neg at hsz
    injection hbr with hbr
    subst hbr
    have hpmem : ∀ q ∈ p :: rest, q.1 < width ∧ q.2 < height := by
      intro q hq; exact hcp q (hp ▸ hq)
    have hxmax : rest.foldl (fun acc q => max acc q.1) p.1 < width :=
      foldl_max_lt (fun q => q.1) width rest p.1 (hpmem p (by simp)).1
        (fun x hx => (hpmem x (by simp [hx])).1)
    have hymax : rest.foldl (fun acc q => max acc q.2) p.2 < height :=
      foldl_max_lt (fun q => q.2) height rest p.2 (hpmem p (by simp)).2
        (fun x hx => (hpmem x (by simp [hx])).2)
    obtain ⟨hw6, hh6⟩ := hsz
    unfold expandBox Rct.right Rct.bottom
    dsimp only
    refine ⟨?_, ?_, ?_, ?_, ?_, ?_⟩ <;> omega

/-- Witness for claim C9: one square contour in a 20×20 map with border 3. -/
theorem claim_c9_witness :
    (∀ c ∈ [Contour.mk [(0, 0), (8, 8)] none], ∀ pt ∈ c.points,
        pt.1 < 20 ∧ pt.2 < 20) ∧
      (∀ r ∈ findBox [Contour.mk [(0, 0), (8, 8)] none] 3 20 20,
        0 ≤ r.left ∧ 0 ≤ r.top ∧ r.left + (r.width : ℤ) ≤ (20 : ℤ) ∧
          r.top + (r.height : ℤ) ≤ (20 : ℤ) ∧ 0 < r.width ∧ 0 < r.height) :=
  ⟨by decide, claim_c9_detection_in_bounds [Contour.mk [(0, 0), (8, 8)] none]
    3 20 20 (by decide)⟩

/-! ### Engine worker reply discipline (src/engine.rs) -/

/-- The operations the worker thread applies per request, abstracting the
detector and recognizer state; `I` is the image type, `E` the error type. -/
structure WorkerOps (I E : Type) where
  findTextImg : I → Except E (List I)
  findTextRect : I → Except E (List Rct)
  predictStr : I → Except E String

/-- Messages the worker sends on a `DetectText` request's reply channel. -/
def repliesDetectText {I E : Type} (ops : WorkerOps I E) (image : I) :
    List (Except E (List I)) :=
  [ops.findTextImg image]

/-- Messages the worker sends on a `GetTextRects` request's reply channel. -/
def repliesGetTextRects {I E : Type} (ops : WorkerOps I E) (image : I) :
    List (Except E (List Rct)) :=
  [ops.findTextRect image]

/-- Messages the worker sends on a `GetTextImages` request's reply channel. -/
def repliesGetTextImages {I E : Type} (ops : WorkerOps I E) (image : I) :
    List (Except E (List I)) :=
  [ops.findTextImg image]

/-- Messages the worker sends on a `RecognizeText` request's reply channel. -/
def repliesRecognizeText {I E : Type} (ops : WorkerOps I E) (image : I) :
    List (Except E String) :=
  [ops.predictStr image]

/-- The recognition loop of the `ProcessOcr` arm: recognize each region,
accumulating results; on the first error it sends that error and breaks, and
the send of `Ok(results)` after the loop runs unconditionally. -/
def processOcrLoop {I E : Type} (ops : WorkerOps I E) :
    List I → List String → List (Except E (List String))
  | [], results => [Except.ok results]
  | textImg :: rest, results =>
    match ops.predictStr textImg with
    | Except.ok text => processOcrLoop ops rest (results ++ [text])
    | Except.error e => [Except.error e, Except.ok results]

/-- Messages the worker sends on a `ProcessOcr` request's reply channel. -/
def repliesProcessOcr {I E : Type} (ops : WorkerOps I E) (image : I) :
    List (Except E (List String)) :=
  match ops.findTextImg image with
  | Except.ok textImages => processOcrLoop ops textImages []
  | Except.error e => [Except.error e]

/-- Claim C3 behaviour at the failing input: the four simple arms send
exactly one reply, but a `ProcessOcr` request whose detection succeeds with
one region and whose recognition fails sends TWO messages on its reply
channel — the error, then the unconditional `Ok` of the partial results —
contradicting the spec's single-reply discipline. -/
theorem claim_c3_processocr_double_reply :
    (∀ (I E : Type) (ops : WorkerOps I E) (image : I),
        (repliesDetectText ops image).length = 1 ∧
          (repliesGetTextRects ops image).length = 1 ∧
          (repliesGetTextImages ops image).length = 1 ∧
          (repliesRecognizeText ops image).length = 1) ∧
      repliesProcessOcr
          (⟨fun _ => Except.ok [()], fun _ => Except.ok [],
            fun _ => Except.error ()⟩ : WorkerOps Unit Unit) () =
        [Except.error (), Except.ok []] ∧
      (repliesProcessOcr
          (⟨fun _ => Except.ok [()], fun _ => Except.ok [],
            fun _ => Except.error ()⟩ : WorkerOps Unit Unit) ()).length = 2 :=
  ⟨fun _ _ _ _ => ⟨rfl, rfl, rfl, rfl⟩, rfl, rfl⟩

/-! ### Region extractor (src/efficient_cropping.rs) -/

/-- The `DynamicImage` pixel-buffer formats the extractor distinguishes. -/
inductive ImgFormat where
  | rgba8 : ImgFormat
  | rgb8 : ImgFormat
  | other : ImgFormat
  deriving DecidableEq

/-- An image: dimensions, a pixel function and a buffer format.  Positions
outside the buffer read as the zero pixel. -/
structure Img where
  width : ℕ
  height : ℕ
  pix : ℕ → ℕ → ℕ
  format : ImgFormat

/-- Modelled from the spec (§4.3, external collaborator): the `image` crate's
`DynamicImage::crop_imm`, used by `EfficientCropper::standard_crop` — a
bounds-clamped sub-image copy whose pixel at `(a, b)` is the source pixel at
`(x+a, y+b)`, preserving the pixel format. -/
def cropImm (img : Img) (x y w h : ℕ) : Img :=
  ⟨min w (img.width - x), min h (img.height - y),
   fun a b => img.pix (x + a) (y + b), img.format⟩

/-- Embeds `EfficientCropper::standard_crop`. -/
def standardCrop (img : Img) (rect : Rct) : Img :=
  cropImm img rect.left.toNat rect.top.toNat rect.width rect.height

/-- Embeds `EfficientCropper::pixel_copy_crop`: for RGBA8/RGB8 buffers, a
freshly allocated buffer of the rectangle's size filled pixel by pixel under
an in-bounds guard (zero-initialized positions stay zero); for any other
format, the standard crop fallback. -/
def pixelCopyCrop (img : Img) (rect : Rct) : Img :=
  match img.format with
  | ImgFormat.rgba8 | ImgFormat.rgb8 =>
    ⟨rect.width, rect.height,
     fun x y =>
       if x < rect.width ∧ y < rect.height ∧
           rect.left.toNat + x < img.width ∧ rect.top.toNat + y < img.height then
         img.pix (rect.left.toNat + x) (rect.top.toNat + y)
       else 0,
     img.format⟩
  | ImgFormat.other => standardCrop img rect

/-- Embeds `EfficientCropper::smart_crop`: whole image → no copy; area under
10% of the image → pixel copy; otherwise standard crop. -/
def smartCrop (img : Img) (rect : Rct) : Img :=
  let cropArea := rect.width * rect.height
  let totalArea := img.width * img.height
  if rect.left = 0 ∧ rect.top = 0 ∧ rect.width = img.width ∧ rect.height = img.height then
    img
  else if cropArea < totalArea / 10 then pixelCopyCrop img rect
  else standardCrop img rect

/-- The region input contract of §6: a rectangle in image pixel coordinates
with positive size lying inside the image. -/
def InBounds (img : Img) (rect : Rct) : Prop :=
  0 ≤ rect.left ∧ 0 ≤ rect.top ∧ 0 < rect.width ∧ 0 < rect.height ∧
    rect.left.toNat + rect.width ≤ img.width ∧ rect.top.toNat + rect.height ≤ img.height

instance (img : Img) (rect : Rct) : Decidable (InBounds img rect) := by
  unfold InBounds; exact inferInstance

/-- Claim C2: for every in-bounds rectangle and each extraction strategy
(whole-image return via `smart_crop`, per-pixel copy, bulk standard crop),
the extracted pixel at local `(x, y)` equals the source pixel at
`(left + x, top + y)`. -/
theorem claim_c2_crop_pixel_correct (img : Img) (rect : Rct) (x y : ℕ)
    (hb : InBounds img rect) (hx : x < rect.width) (hy : y < rect.height) :
    (pixelCopyCrop img rect).pix x y =
        img.pix (rect.left.toNat + x) (rect.top.toNat + y) ∧
      (standardCrop img rect).pix x y =
        img.pix (rect.left.toNat + x) (rect.top.toNat + y) ∧
      (smartCrop img rect).pix x y =
        img.pix (rect.left.toNat + x) (rect.top.toNat + y) := by
  obtain ⟨hl, ht, hw, hh, hwb, hhb⟩ := hb
  have hx2 : rect.left.toNat + x < img.width := by omega
  have hy2 : rect.top.toNat + y < img.height := by omega
  have hstd : (standardCrop img rect).pix x y =
      img.pix (rect.left.toNat + x) (rect.top.toNat + y) := rfl
  have hpcc : (pixelCopyCrop img rect).pix x y =
      img.pix (rect.left.toNat + x) (rect.top.toNat + y) := by
    unfold pixelCopyCrop
    cases hf : img.format
    · exact if_pos ⟨hx, hy, hx2, hy2⟩
    · exact if_pos ⟨hx, hy, hx2, hy2⟩
    · exact hstd
  refine ⟨hpcc, hstd, ?_⟩
  unfold smartCrop
  by_cases hwhole : rect.left = 0 ∧ rect.top = 0 ∧
      rect.width = img.width ∧ rect.height = img.height
  · rw [if_pos hwhole]
    rw [hwhole.1, hwhole.2.1]
    simp
  · rw [if_neg hwhole]
    by_cases hsmall : rect.width * rect.height < img.width * img.height / 10
    · rw [if_pos hsmall]; exact hpcc
    · rw [if_neg hsmall]; exact hstd

/-- Witness for claim C2 on a concrete 4×4 RGB image and the rectangle
`(1,1,2×2)` at local pixel `(0,1)`. -/
theorem claim_c2_witness :
    (InBounds ⟨4, 4, fun i j => i + 4 * j, ImgFormat.rgb8⟩ ⟨1, 1, 2, 2⟩ ∧
        (0:ℕ) < 2 ∧ (1:ℕ) < 2) ∧
      ((pixelCopyCrop ⟨4, 4, fun i j => i + 4 * j, ImgFormat.rgb8⟩ ⟨1, 1, 2, 2⟩).pix 0 1 =
          (⟨4, 4, fun i j => i + 4 * j, ImgFormat.rgb8⟩ : Img).pix
            ((1:ℤ).toNat + 0) ((1:ℤ).toNat + 1) ∧
        (standardCrop ⟨4, 4, fun i j => i + 4 * j, ImgFormat.rgb8⟩ ⟨1, 1, 2, 2⟩).pix 0 1 =
          (⟨4, 4, fun i j => i + 4 * j, ImgFormat.rgb8⟩ : Img).pix
            ((1:ℤ).toNat + 0) ((1:ℤ).toNat + 1) ∧
        (smartCrop ⟨4, 4, fun i j => i + 4 * j, ImgFormat.rgb8⟩ ⟨1, 1, 2, 2⟩).pix 0 1 =
          (⟨4, 4, fun i j => i + 4 * j, ImgFormat.rgb8⟩ : Img).pix
            ((1:ℤ).toNat + 0) ((1:ℤ).toNat + 1)) :=
  ⟨⟨by decide, by decide, by decide⟩,
    claim_c2_crop_pixel_correct ⟨4, 4, fun i j => i + 4 * j, ImgFormat.rgb8⟩
      ⟨1, 1, 2, 2⟩ 0 1 (by decide) (by decide) (by decide)⟩

/-- Rayon's `par_chunks(batchSize)`: split a list into consecutive chunks
(the last possibly shorter).  For `batchSize = 0` it behaves like size 1,
which never arises since the source takes `max(…, 1)`. -/
def chunkList {α : Type} (n : ℕ) : List α → List (List α)
  | [] => []
  | x :: xs => (x :: xs.take (n - 1)) :: chunkList n (xs.drop (n - 1))
termination_by l => l.length
decreasing_by simp only [List.length_drop, List.length_cons]; omega

/-- Embeds `EfficientCropper::parallel_batch_crop`: few rectangles → a
parallel map (rayon's ordered collect), many → chunked parallel map with
re-concatenation in chunk order. -/
def parallelBatchCrop (cpuCores : ℕ) (image : Img) (rects : List Rct) : List Img :=
  if rects.length ≤ cpuCores * 2 then
    rects.map (smartCrop image)
  else
    let batchSize := max (rects.length / cpuCores) 1
    List.flatten ((chunkList batchSize rects).map (fun chunk => chunk.map (smartCrop image)))

/-- Embeds `EfficientCropper::batch_crop`: serial map for few or large
rectangles, otherwise the parallel variant. -/
def batchCrop (cpuCores : ℕ) (image : Img) (rects : List Rct) : List Img :=
  if rects.isEmpty then []
  else
    let totalArea := (rects.map (fun r => r.width * r.height)).sum
    let avgArea := totalArea / rects.length
    let imageArea := image.width * image.height
    if rects.length < 4 ∨ avgArea > imageArea / 8 then
      rects.map (smartCrop image)
    else
      parallelBatchCrop cpuCores image rects

theorem chunkList_cons {α : Type} (n : ℕ) (x : α) (xs : List α) :
    chunkList n (x :: xs) = (x :: xs.take (n - 1)) :: chunkList n (xs.drop (n - 1)) := by
  simp [chunkList]

/-- Chunking and re-concatenating is the identity. -/
theorem chunkList_flatten {α : Type} (n : ℕ) :
    ∀ (l : List α), (chunkList n l).flatten = l := by
  have H : ∀ (k : ℕ) (l : List α), l.length = k → (chunkList n l).flatten = l := by
    intro k
    induction k using Nat.strong_induction_on with
    | _ k ih =>
      intro l hk
      cases l with
      | nil => simp [chunkList]
      | cons x xs =>
        rw [chunkList_cons, List.flatten_cons]
        rw [ih (xs.drop (n - 1)).length
          (by simp only [List.length_cons] at hk; simp only [List.length_drop]; omega)
          (xs.drop (n - 1)) rfl]
        simp [List.take_append_drop]
  exact fun l => H l.length l rfl

/-- Both dispatching batch strategies compute exactly the serial
per-rectangle map. -/
theorem parallelBatchCrop_eq_map (cpuCores : ℕ) (image : Img) (rects : List Rct) :
    parallelBatchCrop cpuCores image rects = rects.map (smartCrop image) := by
  unfold parallelBatchCrop
  split
  · rfl
  · dsimp only
    rw [← List.map_flatten, chunkList_flatten]

theorem batchCrop_eq_map (cpuCores : ℕ) (image : Img) (rects : List Rct) :
    batchCrop cpuCores image rects = rects.map (smartCrop image) := by
  unfold batchCrop
  split
  · rename_i h
    rw [List.isEmpty_iff.mp h]
    rfl
  · dsimp only
    split
    · rfl
    · exact parallelBatchCrop_eq_map cpuCores image rects

/-- Embeds `iter().enumerate()` starting at index `i`. -/
def indexedFrom {α : Type} (i : ℕ) : List α → List (ℕ × α)
  | [] => []
  | x :: xs => (i, x) :: indexedFrom (i + 1) xs

/-- The index-directed writes `results[idx] = Some(result)` of
`optimized_batch_crop`. -/
def writeAll {α : Type} (pairs : List (ℕ × α)) (init : List (Option α)) :
    List (Option α) :=
  pairs.foldl (fun acc p => acc.set p.1 (some p.2)) init

/-- Embeds `EfficientCropper::optimized_batch_crop`: partition the
enumerated rectangles into small and large by the 10% area cutoff, crop the
small ones with the pixel-copy method and the large ones with the standard
method, writes each result back at its original index, then unwraps. -/
def optimizedBatchCrop (image : Img) (rects : List Rct) : List Img :=
  if rects.isEmpty then []
  else
    let indexed := indexedFrom 0 rects
    let isSmall := fun (p : ℕ × Rct) =>
      decide (p.2.width * p.2.height < image.width * image.height / 10)
    let smallResults := (indexed.filter isSmall).map
      (fun p => (p.1, pixelCopyCrop image p.2))
    let largeResults := (indexed.filter (fun q => !(isSmall q))).map
      (fun p => (p.1, standardCrop image p.2))
    let filled := writeAll (smallResults ++ largeResults)
      (List.replicate rects.length none)
    filled.map (fun o => o.getD ⟨0, 0, fun _ _ => 0, ImgFormat.other⟩)

/-- Two images are pixel-identical when they have the same dimensions and
agree on every in-range pixel. -/
def pixelIdentical (a b : Img) : Prop :=
  a.width = b.width ∧ a.height = b.height ∧
    ∀ x y, x < a.width → y < a.height → a.pix x y = b.pix x y

theorem pixelIdentical_refl (a : Img) : pixelIdentical a a :=
  ⟨rfl, rfl, fun _ _ _ _ => rfl⟩

theorem set_getD_self {α : Type} :
    ∀ (l : List (Option α)) (j : ℕ) (v : Option α), j < l.length →
      (l.set j v).getD j none = v := by
  intro l
  induction l with
  | nil => intro j v h; simp at h
  | cons a l ih =>
    intro j v h
    cases j with
    | zero => rfl
    | succ j' => exact ih j' v (by simpa using h)

theorem set_getD_ne {α : Type} :
    ∀ (l : List (Option α)) (i j : ℕ) (v : Option α), i ≠ j →
      (l.set i v).getD j none = l.getD j none := by
  intro l
  induction l with
  | nil => intro i j v _; simp
  | cons a l ih =>
    intro i j v h
    cases i with
    | zero =>
      cases j with
      | zero => exact absurd rfl h
      | succ j' => rfl
    | succ i' =>
      cases j with
      | zero => rfl
      | succ j' => exact ih i' j' v (fun hh => h (by rw [hh]))

theorem writeAll_length {α : Type} :
    ∀ (pairs : List (ℕ × α)) (init : List (Option α)),
      (writeAll pairs init).length = init.length := by
  intro pairs
  induction pairs with
  | nil => intro init; rfl
  | cons p ps ih =>
    intro init
    rw [show writeAll (p :: ps) init = writeAll ps (init.set p.1 (some p.2)) from rfl,
      ih, List.length_set]

theorem writeAll_getD_not_mem {α : Type} :
    ∀ (pairs : List (ℕ × α)) (init : List (Option α)) (j : ℕ),
      (∀ p ∈ pairs, p.1 ≠ j) →
      (writeAll pairs init).getD j none = init.getD j none := by
  intro pairs
  induction pairs with
  | nil => intro init j _; rfl
  | cons p ps ih =>
    intro init j h
    rw [show writeAll (p :: ps) init = writeAll ps (init.set p.1 (some p.2)) from rfl]
    rw [ih _ j (fun q hq => h q (List.mem_cons_of_mem _ hq))]
    exact set_getD_ne init p.1 j _ (h p (List.mem_cons_self _ _))

theorem writeAll_getD_mem {α : Type} :
    ∀ (pairs : List (ℕ × α)) (init : List (Option α)) (j : ℕ) (x : α),
      (j, x) ∈ pairs → (pairs.map Prod.fst).Nodup → j < init.length →
      (writeAll pairs init).getD j none = some x := by
  intro pairs
  induction pairs with
  | nil => intro init j x h _ _; simp at h
  | cons p ps ih =>
    intro init j x hmem hnd hj
    simp only [List.map_cons, List.nodup_cons] at hnd
    rw [show writeAll (p :: ps) init = writeAll ps (init.set p.1 (some p.2)) from rfl]
    rcases List.mem_cons.mp hmem with heq | hmem2
    · have hp1 : p.1 = j := by rw [← heq]
      have hp2 : p.2 = x := by rw [← heq]
      have hnotin : ∀ q ∈ ps, q.1 ≠ j := by
        intro q hq hqj
        exact hnd.1 (hp1 ▸ hqj ▸ List.mem_map_of_mem Prod.fst hq)
      rw [writeAll_getD_not_mem ps _ j hnotin, hp1, hp2]
      exact set_getD_self init j (some x) hj
    · exact ih _ j x hmem2 hnd.2 (by rw [List.length_set]; exact hj)

theorem indexedFrom_get_mem {α : Type} :
    ∀ (l : List α) (i j : ℕ) (h : j < l.length),
      (i + j, l.get ⟨j, h⟩) ∈ indexedFrom i l := by
  intro l
  induction l with
  | nil => intro i j h; simp at h
  | cons x xs ih =>
    intro i j h
    cases j with
    | zero => simp [indexedFrom]
    | succ j' =>
      have hmem := ih (i + 1) j' (by simpa using h)
      simp only [indexedFrom, List.mem_cons]
      right
      have heq : i + (j' + 1) = (i + 1) + j' := by omega
      rw [heq]
      simpa using hmem

theorem indexedFrom_fst_bound {α : Type} :
    ∀ (l : List α) (i : ℕ) (p : ℕ × α), p ∈ indexedFrom i l → i ≤ p.1 := by
  intro l
  induction l with
  | nil => intro i p h; simp [indexedFrom] at h
  | cons x xs ih =>
    intro i p h
    rcases List.mem_cons.mp h with h | h
    · rw [h]
    · exact le_trans (by omega) (ih (i + 1) p h)

theorem indexedFrom_keys_nodup {α : Type} :
    ∀ (l : List α) (i : ℕ), ((indexedFrom i l).map Prod.fst).Nodup := by
  intro l
  induction l with
  | nil => intro i; simp [indexedFrom]
  | cons x xs ih =>
    intro i
    simp only [indexedFrom, List.map_cons, List.nodup_cons]
    refine ⟨?_, ih (i + 1)⟩
    intro hmem
    rcases List.mem_map.mp hmem with ⟨p, hp, hpi⟩
    have := indexedFrom_fst_bound xs (i + 1) p hp
    omega

theorem keys_nodup_val_eq {α : Type} :
    ∀ (l : List (ℕ × α)), (l.map Prod.fst).Nodup →
      ∀ (k : ℕ) (a b : α), (k, a) ∈ l → (k, b) ∈ l → a = b := by
  intro l
  induction l with
  | nil => intro _ k a b h; simp at h
  | cons p ps ih =>
    intro hnd k a b ha hb
    simp only [List.map_cons, List.nodup_cons] at hnd
    rcases List.mem_cons.mp ha with ha | ha <;> rcases List.mem_cons.mp hb with hb | hb
    · rw [← ha] at hb
      injection hb with _ h2
      exact h2.symm
    · exfalso
      exact hnd.1 (by
        have : (k, b).1 ∈ ps.map Prod.fst := List.mem_map_of_mem Prod.fst hb
        rw [← ha]
        exact this)
    · exfalso
      exact hnd.1 (by
        have : (k, a).1 ∈ ps.map Prod.fst := List.mem_map_of_mem Prod.fst ha
        rw [← hb]
        exact this)
    · exact ih hnd.2 k a b ha hb

theorem filter_split_keys_nodup {α : Type} (l : List (ℕ × α)) (p : ℕ × α → Bool)
    (hnd : (l.map Prod.fst).Nodup) :
    ((l.filter p ++ l.filter (fun q => !(p q))).map Prod.fst).Nodup := by
  rw [List.map_append]
  refine List.Nodup.append (hnd.sublist ((List.filter_sublist _).map Prod.fst))
    (hnd.sublist ((List.filter_sublist _).map Prod.fst)) ?_
  intro k hk1 hk2
  rcases List.mem_map.mp hk1 with ⟨q1, hq1, hk1e⟩
  rcases List.mem_map.mp hk2 with ⟨q2, hq2, hk2e⟩
  have hm1 := List.mem_filter.mp hq1
  have hm2 := List.mem_filter.mp hq2
  obtain ⟨k1, a⟩ := q1
  obtain ⟨k2, b⟩ := q2
  simp only at hk1e hk2e
  subst hk1e
  have hab : a = b := keys_nodup_val_eq l hnd k1 a b hm1.1 (hk2e ▸ hm2.1)
  rw [hab] at hm1
  rw [hk2e] at hm2
  rw [hm1.2] at hm2
  simp at hm2

theorem optimizedBatchCrop_length (image : Img) (rects : List Rct) :
    (optimizedBatchCrop image rects).length = rects.length := by
  unfold optimizedBatchCrop
  split
  · rename_i h
    rw [List.isEmpty_iff.mp h]
    rfl
  · simp only [List.length_map, writeAll_length, List.length_replicate]

/-- The tagged result pairs built by `optimized_batch_crop`: small
rectangles (pixel-copied) first, then large ones (standard-cropped), each
carrying its original index. -/
def smallLargePairs (image : Img) (rects : List Rct) : List (ℕ × Img) :=
  (((indexedFrom 0 rects).filter (fun p =>
      decide (p.2.width * p.2.height < image.width * image.height / 10))).map
    (fun p => (p.1, pixelCopyCrop image p.2))) ++
  (((indexedFrom 0 rects).filter (fun q =>
      !(decide (q.2.width * q.2.height < image.width * image.height / 10)))).map
    (fun p => (p.1, standardCrop image p.2)))

theorem optimizedBatchCrop_eq (image : Img) (rects : List Rct) :
    optimizedBatchCrop image rects =
      if rects.isEmpty then []
      else
        (writeAll (smallLargePairs image rects) (List.replicate rects.length none)).map
          (fun o => o.getD ⟨0, 0, fun _ _ => 0, ImgFormat.other⟩) := rfl

theorem smallLargePairs_keys_nodup (image : Img) (rects : List Rct) :
    ((smallLargePairs image rects).map Prod.fst).Nodup := by
  unfold smallLargePairs
  rw [List.map_append, List.map_map, List.map_map]
  rw [show ((Prod.fst ∘ fun p : ℕ × Rct => (p.1, pixelCopyCrop image p.2)) = Prod.fst)
    from rfl]
  rw [show ((Prod.fst ∘ fun p : ℕ × Rct => (p.1, standardCrop image p.2)) = Prod.fst)
    from rfl]
  rw [← List.map_append]
  exact filter_split_keys_nodup (indexedFrom 0 rects) _ (indexedFrom_keys_nodup rects 0)

/-- The reassembled result of `optimized_batch_crop` holds, at each index,
the strategy dictated by that rectangle's own area class. -/
theorem optimizedBatchCrop_getD (image : Img) (rects : List Rct) (j : ℕ)
    (hj : j < rects.length) :
    (optimizedBatchCrop image rects).getD j ⟨0, 0, fun _ _ => 0, ImgFormat.other⟩ =
      (if (rects.get ⟨j, hj⟩).width * (rects.get ⟨j, hj⟩).height <
          image.width * image.height / 10
        then pixelCopyCrop image (rects.get ⟨j, hj⟩)
        else standardCrop image (rects.get ⟨j, hj⟩)) := by
  have hne : ¬(rects.isEmpty = true) := by
    intro h; rw [List.isEmpty_iff.mp h] at hj; simp at hj
  rw [optimizedBatchCrop_eq, if_neg hne]
  have hmem0 : (j, rects.get ⟨j, hj⟩) ∈ indexedFrom 0 rects := by
    simpa using indexedFrom_get_mem rects 0 j hj
  have hfilledlen :
      j < (writeAll (smallLargePairs image rects)
          (List.replicate rects.length none)).length := by
    rw [writeAll_length, List.length_replicate]
    exact hj
  have hmem2 : (j, if (rects.get ⟨j, hj⟩).width * (rects.get ⟨j, hj⟩).height <
        image.width * image.height / 10
      then pixelCopyCrop image (rects.get ⟨j, hj⟩)
      else standardCrop image (rects.get ⟨j, hj⟩)) ∈ smallLargePairs image rects := by
    unfold smallLargePairs
    by_cases hsm : (rects.get ⟨j, hj⟩).width * (rects.get ⟨j, hj⟩).height <
        image.width * image.height / 10
    · rw [if_pos hsm]
      have hmf : (j, rects.get ⟨j, hj⟩) ∈ (indexedFrom 0 rects).filter (fun p =>
          decide (p.2.width * p.2.height < image.width * image.height / 10)) :=
        List.mem_filter.mpr ⟨hmem0, by simpa using hsm⟩
      exact List.mem_append_left _
        (List.mem_map_of_mem (fun p => (p.1, pixelCopyCrop image p.2)) hmf)
    · rw [if_neg hsm]
      have hmf : (j, rects.get ⟨j, hj⟩) ∈ (indexedFrom 0 rects).filter (fun q =>
          !(decide (q.2.width * q.2.height < image.width * image.height / 10))) :=
        List.mem_filter.mpr ⟨hmem0, by simpa using hsm⟩
      exact List.mem_append_right _
        (List.mem_map_of_mem (fun p => (p.1, standardCrop image p.2)) hmf)
  have hfilled := writeAll_getD_mem (smallLargePairs image rects)
    (List.replicate rects.length none) j _ hmem2
    (smallLargePairs_keys_nodup image rects)
    (by rw [List.length_replicate]; exact hj)
  rw [List.getD_eq_getElem _ _ (by simpa using hfilledlen), List.getElem_map]
  rw [List.getD_eq_getElem _ _ hfilledlen] at hfilled
  rw [hfilled]
  rfl

/-- The per-index strategy of `optimized_batch_crop` is pixel-identical to
`smart_crop` on every in-bounds rectangle. -/
theorem strat_pixelIdentical_smart (image : Img) (rect : Rct)
    (_hb : InBounds image rect) :
    pixelIdentical
      (if rect.width * rect.height < image.width * image.height / 10
        then pixelCopyCrop image rect
        else standardCrop image rect)
      (smartCrop image rect) := by
  unfold smartCrop
  dsimp only
  by_cases hwhole : rect.left = 0 ∧ rect.top = 0 ∧
      rect.width = image.width ∧ rect.height = image.height
  · obtain ⟨h1, h2, h3, h4⟩ := hwhole
    have hnot : ¬(rect.width * rect.height < image.width * image.height / 10) := by
      rw [h3, h4]
      exact not_lt.mpr (Nat.div_le_self _ _)
    rw [if_neg hnot, if_pos ⟨h1, h2, h3, h4⟩]
    refine ⟨?_, ?_, ?_⟩
    · simp [standardCrop, cropImm, h1, h3]
    · simp [standardCrop, cropImm, h2, h4]
    · intro x y hx hy
      simp [standardCrop, cropImm, h1, h2]
  · rw [if_neg hwhole]
    split
    · exact pixelIdentical_refl _
    · exact pixelIdentical_refl _

/-- Claim C8: every batch extraction operation returns one image per input
rectangle, in the original order: `batch_crop` and `parallel_batch_crop`
compute exactly the serial per-rectangle map, and `optimized_batch_crop`
returns a list of the same length whose `j`-th element is pixel-identical to
`smart_crop` of the `j`-th rectangle. -/
theorem claim_c8_batch_equivalence (image : Img) (rects : List Rct) (cpuCores : ℕ)
    (hb : ∀ r ∈ rects, InBounds image r) :
    batchCrop cpuCores image rects = rects.map (smartCrop image) ∧
      parallelBatchCrop cpuCores image rects = rects.map (smartCrop image) ∧
      (optimizedBatchCrop image rects).length = rects.length ∧
      ∀ (j : ℕ) (hj : j < rects.length),
        pixelIdentical
          ((optimizedBatchCrop image rects).getD j ⟨0, 0, fun _ _ => 0, ImgFormat.other⟩)
          (smartCrop image (rects.get ⟨j, hj⟩)) := by
  refine ⟨batchCrop_eq_map cpuCores image rects,
    parallelBatchCrop_eq_map cpuCores image rects,
    optimizedBatchCrop_length image rects, ?_⟩
  intro j hj
  rw [optimizedBatchCrop_getD image rects j hj]
  exact strat_pixelIdentical_smart image (rects.get ⟨j, hj⟩)
    (hb _ (List.get_mem rects j hj))

/-- Witness for claim C8 on a concrete 4×4 RGB image and one rectangle. -/
theorem claim_c8_witness :
    (∀ r ∈ [(⟨1, 1, 2, 2⟩ : Rct)],
        InBounds ⟨4, 4, fun i j => i + 4 * j, ImgFormat.rgb8⟩ r) ∧
      (batchCrop 4 ⟨4, 4, fun i j => i + 4 * j, ImgFormat.rgb8⟩ [⟨1, 1, 2, 2⟩] =
          [(⟨1, 1, 2, 2⟩ : Rct)].map
            (smartCrop ⟨4, 4, fun i j => i + 4 * j, ImgFormat.rgb8⟩) ∧
        parallelBatchCrop 4 ⟨4, 4, fun i j => i + 4 * j, ImgFormat.rgb8⟩ [⟨1, 1, 2, 2⟩] =
          [(⟨1, 1, 2, 2⟩ : Rct)].map
            (smartCrop ⟨4, 4, fun i j => i + 4 * j, ImgFormat.rgb8⟩) ∧
        (optimizedBatchCrop ⟨4, 4, fun i j => i + 4 * j, ImgFormat.rgb8⟩
            [⟨1, 1, 2, 2⟩]).length = [(⟨1, 1, 2, 2⟩ : Rct)].length ∧
        ∀ (j : ℕ) (hj : j < [(⟨1, 1, 2, 2⟩ : Rct)].length),
          pixelIdentical
            ((optimizedBatchCrop ⟨4, 4, fun i j => i + 4 * j, ImgFormat.rgb8⟩
                [⟨1, 1, 2, 2⟩]).getD j ⟨0, 0, fun _ _ => 0, ImgFormat.other⟩)
            (smartCrop ⟨4, 4, fun i j => i + 4 * j, ImgFormat.rgb8⟩
              ([(⟨1, 1, 2, 2⟩ : Rct)].get ⟨j, hj⟩))) :=
  ⟨by decide,
    claim_c8_batch_equivalence ⟨4, 4, fun i j => i + 4 * j, ImgFormat.rgb8⟩
      [⟨1, 1, 2, 2⟩] 4 (by decide)⟩

end PaddleOcr
